import Mathlib

/-!
Verification of the dual moving-average crossover backtest (`src/main.py`).

The strategy logic (`DualMovingAverageStrategy.next`, `notify_order`, the
result-reporting block of `__main__`) is embedded directly from the source.
The parts of the engine that the source delegates to the backtesting
framework — the simple-moving-average indicator, the crossover detector,
the broker's order-resolution machinery and the Sharpe analyzer — are not
present in the repository; they are modelled from the specification
(§4.1, §4.2, §4.4, §4.5) and marked `Modelled from the spec:` below.

Prices, sizes and cash amounts are modelled as rationals.
-/

/-- Side of an order: the strategy emits BUY intents (`self.buy`) and
SELL intents (`self.close`). -/
inductive OrderSide
  | buy
  | sell
  deriving DecidableEq

/-- Order status, after the framework's lifecycle used in
`notify_order` (src/main.py lines 50–62): Submitted, Accepted,
Completed, Canceled, Margin, Rejected. -/
inductive OrderStatus
  | submitted
  | accepted
  | completed
  | canceled
  | margin
  | rejected
  deriving DecidableEq

/-- An order record: id, side, requested size, current status, the bar
index at which the strategy created it, and that bar's closing price
(recorded at creation because the spec's fill policy prices fills at the
creation bar's close). -/
structure Order where
  id : ℕ
  side : OrderSide
  size : ℚ
  status : OrderStatus
  createdAtBar : ℕ
  createdClose : ℚ
  deriving DecidableEq

/-- A status is active while it is SUBMITTED or ACCEPTED. -/
def OrderStatus.active : OrderStatus → Bool
  | .submitted => true
  | .accepted => true
  | _ => false

/-- An order is outstanding while its status is SUBMITTED or ACCEPTED. -/
def Order.outstanding (o : Order) : Bool :=
  o.status.active

/-- A fill record produced by the broker when an order completes. -/
structure Fill where
  orderId : ℕ
  side : OrderSide
  size : ℚ
  price : ℚ
  createdAtBar : ℕ
  deriving DecidableEq

/-- The run configuration of `src/main.py`: the strategy's `params`
tuple (`fast_ma_period`, `slow_ma_period`, lines 11–14) together with the
broker settings made in `__main__` (`setcash` line 124, `setcommission`
line 127).  Note there is no position-size field: the source configures
only these four values. -/
structure RunConfig where
  fast_ma_period : ℤ
  slow_ma_period : ℤ
  startingCash : ℚ
  commission : ℚ
  deriving DecidableEq

/-- The default configuration of the source: periods 50/200,
cash 100000.0, commission 0.001. -/
def defaultConfig : RunConfig :=
  { fast_ma_period := 50, slow_ma_period := 200,
    startingCash := 100000, commission := 1/1000 }

/-- Combined strategy-plus-broker state threaded through the replay.
`order` is the strategy's pending-order tracker `self.order` (holding
the tracked order's id, `none` when no order is pending); `position` is
`self.position.size`; `orders` is the broker's list of all orders ever
created; `fills` records every executed fill. -/
structure EngineState where
  order : Option ℕ
  position : ℚ
  cash : ℚ
  orders : List Order
  nextId : ℕ
  fills : List Fill
  deriving DecidableEq

/-- Number of outstanding (SUBMITTED/ACCEPTED) orders in a book. -/
def countOutstanding (l : List Order) : ℕ :=
  l.countP (fun o => o.outstanding)

/-- `DualMovingAverageStrategy.next` (src/main.py lines 68–91): if an
order is pending do nothing; else if flat and the crossover value is
positive, create a BUY order of size 10 (`self.buy(size=10)`, line 83)
and remember it in the tracker; else if in the market and the crossover
value is negative, create a SELL order closing the whole position
(`self.close()`, line 91).  The configuration is passed but — exactly as
in the source — the emitted size does not read it. -/
def strategyNext (_cfg : RunConfig) (bar : ℕ) (close cross : ℚ)
    (st : EngineState) : EngineState :=
  if st.order.isSome then st
  else if st.position = 0 then
    if 0 < cross then
      { st with
        order := some st.nextId,
        orders := st.orders ++
          [{ id := st.nextId, side := .buy, size := 10,
             status := .submitted, createdAtBar := bar,
             createdClose := close }],
        nextId := st.nextId + 1 }
    else st
  else
    if cross < 0 then
      { st with
        order := some st.nextId,
        orders := st.orders ++
          [{ id := st.nextId, side := .sell, size := st.position,
             status := .submitted, createdAtBar := bar,
             createdClose := close }],
        nextId := st.nextId + 1 }
    else st

/-- `DualMovingAverageStrategy.notify_order` (src/main.py lines 45–66):
on a SUBMITTED or ACCEPTED notification return with the tracker intact;
on any other status (Completed, Canceled, Margin, Rejected) fall through
to `self.order = None`, resetting the pending-order tracker. -/
def notify_order (st : EngineState) (status : OrderStatus) : EngineState :=
  if status = .submitted ∨ status = .accepted then st
  else { st with order := none }

/-- Per-bar choice of the broker (the strategy does not control this):
keep the outstanding order pending, fill it, or terminate it as
canceled / margin / rejected.  Quantifying over arbitrary schedules
over-approximates every concrete broker behaviour. -/
inductive BrokerAction
  | keep
  | fill
  | cancel
  | margin
  | reject
  deriving DecidableEq

/-- Terminal status produced by a broker action (meaningful for the
non-`keep` actions). -/
def BrokerAction.terminalStatus : BrokerAction → OrderStatus
  | .keep => .submitted
  | .fill => .completed
  | .cancel => .canceled
  | .margin => .margin
  | .reject => .rejected

/-- Replace the status of the first outstanding order in the book. -/
def resolveFirst (ns : OrderStatus) : List Order → List Order
  | [] => []
  | o :: rest =>
    if o.outstanding then { o with status := ns } :: rest
    else o :: resolveFirst ns rest

/-- Modelled from the spec: the Broker Simulator's order resolution
(§4.4).  On `keep` nothing happens.  Otherwise the first outstanding
order moves to the action's terminal status; a fill executes at the
order's creation bar's closing price (the spec's fill policy: a market
order created on bar t is filled using bar t's close), deducting a
commission of `fillPrice × size × commissionRate` — BUY pays
`price × size + commission` from cash and adds `size` to the position,
SELL receives `price × size − commission` and subtracts `size`; MARGIN /
REJECTED / CANCELED terminate without mutating position or cash.  The
status change is then reported to the strategy via `notify_order`. -/
def brokerResolve (commRate : ℚ) (act : BrokerAction)
    (st : EngineState) : EngineState :=
  match act with
  | .keep => st
  | _ =>
    match st.orders.find? (fun o => o.outstanding) with
    | none => st
    | some o =>
      let ns := act.terminalStatus
      let st1 := { st with orders := resolveFirst ns st.orders }
      let st2 :=
        match act with
        | .fill =>
          let comm := o.createdClose * o.size * commRate
          match o.side with
          | .buy =>
            { st1 with
              cash := st1.cash - (o.createdClose * o.size + comm),
              position := st1.position + o.size,
              fills := st1.fills ++
                [{ orderId := o.id, side := o.side, size := o.size,
                   price := o.createdClose,
                   createdAtBar := o.createdAtBar }] }
          | .sell =>
            { st1 with
              cash := st1.cash + (o.createdClose * o.size - comm),
              position := st1.position - o.size,
              fills := st1.fills ++
                [{ orderId := o.id, side := o.side, size := o.size,
                   price := o.createdClose,
                   createdAtBar := o.createdAtBar }] }
        | _ => st1
      notify_order st2 ns

/-- Input of one replay step: the bar's closing price, the crossover
value the strategy observes at that bar, and the broker's
(nondeterministically chosen) resolution action. -/
structure BarInput where
  close : ℚ
  cross : ℚ
  act : BrokerAction
  deriving DecidableEq

/-- One bar of the replay loop (spec §2): the Strategy Decision Engine
runs first (`next`), then the broker resolves any outstanding order. -/
def barStep (cfg : RunConfig) (st : EngineState) (input : ℕ × BarInput) :
    EngineState :=
  brokerResolve cfg.commission input.2.act
    (strategyNext cfg input.1 input.2.close input.2.cross st)

/-- Initial engine state: no pending order, flat position, the
configured starting cash, empty books. -/
def initState (cfg : RunConfig) : EngineState :=
  { order := none, position := 0, cash := cfg.startingCash,
    orders := [], nextId := 0, fills := [] }

/-- Replay the whole bar sequence through the engine. -/
def runEngine (cfg : RunConfig) (inputs : List BarInput) : EngineState :=
  inputs.enum.foldl (barStep cfg) (initState cfg)

/-- Modelled from the spec: one step of the Rolling Indicator (§4.1,
`bt.indicators.SimpleMovingAverage` is framework code).  The state is
the trailing buffer together with its running sum; a new price is
appended and added, and once the buffer exceeds the period the value
leaving the window is dropped and subtracted. -/
def smaStep (p : ℕ) (s : List ℚ × ℚ) (x : ℚ) : List ℚ × ℚ :=
  let buf := s.1 ++ [x]
  let sum := s.2 + x
  if buf.length ≤ p then (buf, sum)
  else (buf.tail, sum - buf.headI)

/-- Modelled from the spec: the SMA output stream — one entry per
price, `none` while the window holds fewer than `p` observations,
otherwise the running sum divided by the period. -/
def smaAux (p : ℕ) (s : List ℚ × ℚ) : List ℚ → List (Option ℚ)
  | [] => []
  | x :: xs =>
    let s' := smaStep p s x
    (if s'.1.length = p then some (s'.2 / (p : ℚ)) else none) :: smaAux p s' xs

/-- Modelled from the spec: the simple moving average of period `p`
over a price stream, as an IndicatorSeries aligned 1:1 with the
input. -/
def sma (p : ℕ) (prices : List ℚ) : List (Option ℚ) :=
  smaAux p ([], 0) prices

/-- The trailing window of at most `p` elements of a list. -/
def trailing (p : ℕ) (l : List ℚ) : List ℚ :=
  l.drop (l.length - p)

/-- The SMA output after having consumed exactly the prices `l`:
defined once at least `p` prices arrived, as the mean of the trailing
`p` of them. -/
def smaOut (p : ℕ) (l : List ℚ) : Option ℚ :=
  if p ≤ l.length then some ((trailing p l).sum / (p : ℚ)) else none

/-- Modelled from the spec: the Crossover Detector's per-bar value
(§4.2, `bt.indicators.CrossOver` is framework code): +1 when the
previous diff was ≤ 0 and the current diff is > 0, −1 when the previous
diff was ≥ 0 and the current diff is < 0, 0 otherwise — and 0 when no
previous diff exists. -/
def crossVal (prev : Option ℚ) (d : ℚ) : ℚ :=
  match prev with
  | none => 0
  | some pd =>
    if pd ≤ 0 ∧ 0 < d then 1
    else if 0 ≤ pd ∧ d < 0 then -1
    else 0

/-- Modelled from the spec: the Crossover Detector run over a stream of
(fast, slow) indicator pairs, carrying the most recent defined diff.
Bars where either indicator is undefined emit 0. -/
def crossoverAux (prev : Option ℚ) :
    List (Option ℚ × Option ℚ) → List ℚ
  | [] => []
  | pr :: rest =>
    match pr with
    | (some f, some s) =>
      crossVal prev (f - s) :: crossoverAux (some (f - s)) rest
    | _ => 0 :: crossoverAux prev rest

/-- The crossover value series of two indicator series. -/
def crossoverSeries (fast slow : List (Option ℚ)) : List ℚ :=
  crossoverAux none (fast.zip slow)

/-- The most recent defined diff in a list of indicator pairs, starting
from `prev`. -/
def lastDiffFrom (prev : Option ℚ)
    (l : List (Option ℚ × Option ℚ)) : Option ℚ :=
  l.foldl
    (fun acc pr =>
      match pr with
      | (some f, some s) => some (f - s)
      | _ => acc)
    prev

/-- The discrete signal of the spec's data model. -/
inductive Signal
  | bullishCross
  | bearishCross
  | noSignal
  deriving DecidableEq

/-- How the strategy reads a crossover value (src/main.py lines 80 and
88: `self.crossover > 0` is the buy signal, `self.crossover < 0` the
sell signal). -/
def signalOf (c : ℚ) : Signal :=
  if 0 < c then .bullishCross else if c < 0 then .bearishCross else .noSignal

/-- Aggregated per-return statistics used by the Sharpe analyzer. -/
def listMean (l : List ℚ) : ℚ :=
  l.sum / (l.length : ℚ)

/-- Population variance of a list of rationals. -/
def listVariance (l : List ℚ) : ℚ :=
  ((l.map (fun x => (x - listMean l) ^ 2)).sum) / (l.length : ℚ)

/-- Modelled from the spec: the Sharpe analyzer (§4.5,
`bt.analyzers.SharpeRatio` is framework code): mean of per-bar returns
over their standard deviation, annualized by the square root of
periods-per-year; undefined (`none`) when fewer than two data points
exist or the return variance is zero. -/
noncomputable def sharpeRatio (periodsPerYear : ℕ) (rets : List ℚ) :
    Option ℝ :=
  if rets.length < 2 ∨ listVariance rets = 0 then none
  else
    some (((listMean rets : ℝ) / Real.sqrt (listVariance rets : ℝ)) *
      Real.sqrt (periodsPerYear : ℕ))

/-- The Sharpe line of the final report. -/
inductive SharpeLine
  | value (r : ℝ)
  | na

/-- Modelled from the spec: the analysis object returned by the Sharpe
analyzer's `get_analysis()`.  The source indexes it at the key
`sharperatio` (src/main.py line 150), so it is a container holding the
— per §4.5 possibly undefined — ratio, not the bare ratio itself. -/
structure SharpeAnalysis where
  sharperatio : Option ℝ

/-- Modelled from the spec: `get_analysis()` produces the analysis
container.  Per §4.5 the thing that is undefined on degenerate input
(fewer than two returns, or zero return variance) is the ratio inside
the container; the container itself is always produced, so this
function never yields `none` — the `Option` is only the type of the
object that line 149 of the source compares against `None`. -/
noncomputable def get_analysis (periodsPerYear : ℕ) (rets : List ℚ) :
    Option SharpeAnalysis :=
  some { sharperatio := sharpeRatio periodsPerYear rets }

/-- The error raised by Python when a numeric format spec such as
`.2f` is applied to `None`. -/
inductive ReportError
  | typeError
  deriving DecidableEq

/-- The Sharpe-reporting block of `__main__` (src/main.py lines
147–152), with Python's formatting semantics made explicit: when the
analysis object is not `None` the branch formats
`sharpe_ratio["sharperatio"]` with `.2f`, which prints the value line
for a number but raises a TypeError when the ratio inside the container
is undefined; only when the analysis object itself is `None` does the
explicit `Sharpe Ratio: N/A` line print. -/
def sharpeReport (analysis : Option SharpeAnalysis) :
    Except ReportError SharpeLine :=
  match analysis with
  | some a =>
    match a.sharperatio with
    | some r => Except.ok (SharpeLine.value r)
    | none => Except.error ReportError.typeError
  | none => Except.ok SharpeLine.na

/-- The fields of the trade analyzer's result that the report reads
(src/main.py lines 165–177). -/
structure TradeAnalysis where
  closed : ℕ
  won : ℕ
  lost : ℕ
  wonPnlAverage : ℚ
  lostPnlAverage : ℚ
  longTotal : ℕ
  longWon : ℕ
  longLost : ℕ
  shortTotal : ℕ
  shortWon : ℕ
  shortLost : ℕ
  deriving DecidableEq

/-- One printed line of the trade-statistics report. -/
inductive ReportLine
  | totalTrades (n : ℕ)
  | wins (n : ℕ)
  | losses (n : ℕ)
  | winRate (r : ℚ)
  | averageWin (r : ℚ)
  | averageLoss (r : ℚ)
  | longBreakdown (total won lost : ℕ)
  | shortBreakdown (total won lost : ℕ)
  | noTradesClosed
  deriving DecidableEq

/-- The trade-statistics reporting block of `__main__` (src/main.py
lines 165–179): when `total.closed > 0` print count, wins, losses, the
win rate `won / closed * 100`, the average win/loss lines guarded by
their own counts, and the long/short breakdown; otherwise print the
`No trades closed during the backtest period.` line. -/
def tradeReport (t : TradeAnalysis) : List ReportLine :=
  if 0 < t.closed then
    [.totalTrades t.closed, .wins t.won, .losses t.lost,
     .winRate ((t.won : ℚ) / (t.closed : ℚ) * 100)]
    ++ (if 0 < t.won then [.averageWin t.wonPnlAverage] else [])
    ++ (if 0 < t.lost then [.averageLoss t.lostPnlAverage] else [])
    ++ [.longBreakdown t.longTotal t.longWon t.longLost,
        .shortBreakdown t.shortTotal t.shortWon t.shortLost]
  else [.noTradesClosed]

/-- A run configuration differing from `defaultConfig` in every field,
used to test whether any configured value influences the emitted BUY
size. -/
def cfgA : RunConfig :=
  { fast_ma_period := 5, slow_ma_period := 20,
    startingCash := 100, commission := 0 }

/-- The invariant maintained by every replay step: the strategy's
pending-order tracker gates order creation (no tracker ⇒ no outstanding
order, and never more than one outstanding), the position is never
negative, every outstanding SELL is sized to the whole current position
and every outstanding BUY has the hard-coded size 10, and every order
and fill carries the closing price of its creation bar. -/
def EngineInv (inputs : List BarInput) (st : EngineState) : Prop :=
  (st.order = none → countOutstanding st.orders = 0) ∧
  countOutstanding st.orders ≤ 1 ∧
  0 ≤ st.position ∧
  (∀ o ∈ st.orders, o.outstanding = true → o.side = OrderSide.sell →
    o.size = st.position) ∧
  (∀ o ∈ st.orders, o.outstanding = true → o.side = OrderSide.buy →
    o.size = 10) ∧
  (∀ o ∈ st.orders,
    (inputs[o.createdAtBar]?).map BarInput.close = some o.createdClose) ∧
  (∀ f ∈ st.fills,
    (inputs[f.createdAtBar]?).map BarInput.close = some f.price)

/-! ### General helper lemmas -/

theorem foldl_invariant {σ α : Type*} (f : σ → α → σ) (P : σ → Prop) :
    ∀ (l : List α) (s : σ), P s →
      (∀ s' a, a ∈ l → P s' → P (f s' a)) → P (l.foldl f s)
  | [], _, hs, _ => hs
  | a :: l, s, hs, hstep =>
    foldl_invariant f P l (f s a) (hstep s a (List.mem_cons_self a l) hs)
      (fun s' b hb hs' => hstep s' b (List.mem_cons_of_mem a hb) hs')

theorem countOutstanding_append (l1 l2 : List Order) :
    countOutstanding (l1 ++ l2) = countOutstanding l1 + countOutstanding l2 :=
  List.countP_append _ _ _

theorem countOutstanding_eq_zero {l : List Order} :
    countOutstanding l = 0 ↔ ∀ o ∈ l, o.outstanding = false := by
  simp [countOutstanding, List.countP_eq_zero]

theorem countOutstanding_pos_of_mem {l : List Order} {o : Order}
    (hmem : o ∈ l) (ho : o.outstanding = true) : 1 ≤ countOutstanding l := by
  have : 0 < l.countP (fun o => o.outstanding) :=
    List.countP_pos_iff.mpr ⟨o, hmem, ho⟩
  simpa [countOutstanding] using this

theorem outstanding_setStatus (o : Order) (ns : OrderStatus) :
    ({ o with status := ns } : Order).outstanding = ns.active := rfl

theorem countOutstanding_resolveFirst (ns : OrderStatus)
    (hns : ns.active = false) (l : List Order) :
    countOutstanding (resolveFirst ns l) = countOutstanding l - 1 := by
  induction l with
  | nil => rfl
  | cons o rest ih =>
    by_cases h : o.outstanding = true
    · simp only [resolveFirst, h, if_true, countOutstanding, List.countP_cons,
        outstanding_setStatus, hns, h]
      simp
    · simp only [resolveFirst, h, if_false, Bool.false_eq_true, countOutstanding,
        List.countP_cons, h]
      simp only [countOutstanding] at ih
      omega

theorem mem_resolveFirst {ns : OrderStatus} {l : List Order} {o' : Order}
    (h : o' ∈ resolveFirst ns l) :
    o' ∈ l ∨ ∃ o ∈ l, o' = { o with status := ns } := by
  induction l with
  | nil => simp [resolveFirst] at h
  | cons o rest ih =>
    by_cases ho : o.outstanding = true
    · simp only [resolveFirst, ho, if_true, List.mem_cons] at h
      rcases h with h | h
      · exact Or.inr ⟨o, List.mem_cons_self o rest, h⟩
      · exact Or.inl (List.mem_cons_of_mem o h)
    · simp only [resolveFirst, ho, Bool.false_eq_true, if_false,
        List.mem_cons] at h
      rcases h with h | h
      · exact Or.inl (by simp [h])
      · rcases ih h with h' | ⟨o2, ho2, he⟩
        · exact Or.inl (List.mem_cons_of_mem o h')
        · exact Or.inr ⟨o2, List.mem_cons_of_mem o ho2, he⟩

/-! ### Preservation of the replay invariant -/

theorem strategyNext_inv (cfg : RunConfig) (inputs : List BarInput)
    (i : ℕ) (b : BarInput) (hib : inputs[i]? = some b) (st : EngineState)
    (h : EngineInv inputs st) :
    EngineInv inputs (strategyNext cfg i b.close b.cross st) := by
  obtain ⟨h1, h2, h3, h4, h5, h6, h7⟩ := h
  cases hord : st.order with
  | some v =>
    simpa [strategyNext, hord] using ⟨h1, h2, h3, h4, h5, h6, h7⟩
  | none =>
    have hcnt : countOutstanding st.orders = 0 := h1 hord
    have hout : ∀ o ∈ st.orders, o.outstanding = false :=
      countOutstanding_eq_zero.mp hcnt
    by_cases hpos : st.position = 0
    · by_cases hcross : 0 < b.cross
      · simp only [strategyNext, hord, Option.isSome_none, Bool.false_eq_true,
          if_false, hpos, if_true, hcross]
        refine ⟨?_, ?_, le_refl 0, ?_, ?_, ?_, h7⟩
        · intro hco; simp at hco
        · show countOutstanding (st.orders ++ _) ≤ 1
          rw [countOutstanding_append, hcnt]
          simp [countOutstanding, Order.outstanding, OrderStatus.active]
        · intro o hm hob hside
          rcases List.mem_append.mp hm with hm | hm
          · exact absurd hob (by simp [hout o hm])
          · simp only [List.mem_singleton] at hm
            subst hm
            simp at hside
        · intro o hm hob hside
          rcases List.mem_append.mp hm with hm | hm
          · exact absurd hob (by simp [hout o hm])
          · simp only [List.mem_singleton] at hm
            subst hm
            rfl
        · intro o hm
          rcases List.mem_append.mp hm with hm | hm
          · exact h6 o hm
          · simp only [List.mem_singleton] at hm
            subst hm
            simp [hib]
      · simpa [strategyNext, hord, hpos, hcross]
          using ⟨h1, h2, h3, h4, h5, h6, h7⟩
    · by_cases hcross : b.cross < 0
      · simp only [strategyNext, hord, Option.isSome_none, Bool.false_eq_true,
          if_false, hpos, if_true, hcross]
        refine ⟨?_, ?_, h3, ?_, ?_, ?_, h7⟩
        · intro hco; simp at hco
        · show countOutstanding (st.orders ++ _) ≤ 1
          rw [countOutstanding_append, hcnt]
          simp [countOutstanding, Order.outstanding, OrderStatus.active]
        · intro o hm hob hside
          rcases List.mem_append.mp hm with hm | hm
          · exact absurd hob (by simp [hout o hm])
          · simp only [List.mem_singleton] at hm
            subst hm
            rfl
        · intro o hm hob hside
          rcases List.mem_append.mp hm with hm | hm
          · exact absurd hob (by simp [hout o hm])
          · simp only [List.mem_singleton] at hm
            subst hm
            simp at hside
        · intro o hm
          rcases List.mem_append.mp hm with hm | hm
          · exact h6 o hm
          · simp only [List.mem_singleton] at hm
            subst hm
            simp [hib]
      · simpa [strategyNext, hord, hpos, hcross]
          using ⟨h1, h2, h3, h4, h5, h6, h7⟩

theorem inv_afterResolve (inputs : List BarInput) (st : EngineState)
    (ns : OrderStatus) (hns : ns.active = false) (o : Order)
    (hfind : st.orders.find? (fun o => o.outstanding) = some o)
    (h : EngineInv inputs st) (pos' cash' : ℚ) (fills' : List Fill)
    (hpos : 0 ≤ pos')
    (hfills : ∀ f ∈ fills',
      (inputs[f.createdAtBar]?).map BarInput.close = some f.price) :
    EngineInv inputs
      (notify_order
        { st with orders := resolveFirst ns st.orders,
                  position := pos', cash := cash', fills := fills' } ns) := by
  obtain ⟨h1, h2, h3, h4, h5, h6, h7⟩ := h
  have homem : o ∈ st.orders := List.mem_of_find?_eq_some hfind
  have hoout : o.outstanding = true := by
    simpa using List.find?_some hfind
  have hone : countOutstanding st.orders = 1 :=
    le_antisymm h2 (countOutstanding_pos_of_mem homem hoout)
  have hres : countOutstanding (resolveFirst ns st.orders) = 0 := by
    rw [countOutstanding_resolveFirst ns hns, hone]
  have hall : ∀ o' ∈ resolveFirst ns st.orders, o'.outstanding = false :=
    countOutstanding_eq_zero.mp hres
  have hns' : ¬(ns = OrderStatus.submitted ∨ ns = OrderStatus.accepted) := by
    cases ns <;> simp_all [OrderStatus.active]
  rw [notify_order, if_neg hns']
  refine ⟨fun _ => hres, ?_, hpos, ?_, ?_, ?_, hfills⟩
  · show countOutstanding (resolveFirst ns st.orders) ≤ 1
    rw [hres]; omega
  · intro o' hm hob _
    exact absurd hob (by simp [hall o' hm])
  · intro o' hm hob _
    exact absurd hob (by simp [hall o' hm])
  · intro o' hm
    rcases mem_resolveFirst hm with h' | ⟨o2, ho2, he⟩
    · exact h6 o' h'
    · subst he
      exact h6 o2 ho2

theorem brokerResolve_inv (commRate : ℚ) (act : BrokerAction)
    (inputs : List BarInput) (st : EngineState) (h : EngineInv inputs st) :
    EngineInv inputs (brokerResolve commRate act st) := by
  obtain ⟨h1, h2, h3, h4, h5, h6, h7⟩ := h
  cases act with
  | keep => exact ⟨h1, h2, h3, h4, h5, h6, h7⟩
  | fill =>
    cases hfind : st.orders.find? (fun o => o.outstanding) with
    | none =>
      simpa [brokerResolve, hfind] using ⟨h1, h2, h3, h4, h5, h6, h7⟩
    | some o =>
      have homem : o ∈ st.orders := List.mem_of_find?_eq_some hfind
      have hoout : o.outstanding = true := by
        simpa using List.find?_some hfind
      have hfill : ∀ f ∈ st.fills ++
          [{ orderId := o.id, side := o.side, size := o.size,
             price := o.createdClose, createdAtBar := o.createdAtBar : Fill }],
          (inputs[f.createdAtBar]?).map BarInput.close = some f.price := by
        intro f hm
        rcases List.mem_append.mp hm with hm | hm
        · exact h7 f hm
        · simp only [List.mem_singleton] at hm
          subst hm
          exact h6 o homem
      simp only [brokerResolve, hfind]
      cases hside : o.side with
      | buy =>
        have hsz : o.size = 10 := h5 o homem hoout hside
        simp only [hside]
        rw [hside] at hfill
        exact inv_afterResolve inputs st .completed rfl o hfind
          ⟨h1, h2, h3, h4, h5, h6, h7⟩ _ _ _
          (by rw [hsz]; linarith) hfill
      | sell =>
        have hsz : o.size = st.position := h4 o homem hoout hside
        simp only [hside]
        rw [hside] at hfill
        exact inv_afterResolve inputs st .completed rfl o hfind
          ⟨h1, h2, h3, h4, h5, h6, h7⟩ _ _ _
          (by rw [hsz]; simp) hfill
  | cancel =>
    cases hfind : st.orders.find? (fun o => o.outstanding) with
    | none =>
      simpa [brokerResolve, hfind] using ⟨h1, h2, h3, h4, h5, h6, h7⟩
    | some o =>
      simp only [brokerResolve, hfind]
      exact inv_afterResolve inputs st .canceled rfl o hfind
        ⟨h1, h2, h3, h4, h5, h6, h7⟩ _ _ _ h3 h7
  | margin =>
    cases hfind : st.orders.find? (fun o => o.outstanding) with
    | none =>
      simpa [brokerResolve, hfind] using ⟨h1, h2, h3, h4, h5, h6, h7⟩
    | some o =>
      simp only [brokerResolve, hfind]
      exact inv_afterResolve inputs st .margin rfl o hfind
        ⟨h1, h2, h3, h4, h5, h6, h7⟩ _ _ _ h3 h7
  | reject =>
    cases hfind : st.orders.find? (fun o => o.outstanding) with
    | none =>
      simpa [brokerResolve, hfind] using ⟨h1, h2, h3, h4, h5, h6, h7⟩
    | some o =>
      simp only [brokerResolve, hfind]
      exact inv_afterResolve inputs st .rejected rfl o hfind
        ⟨h1, h2, h3, h4, h5, h6, h7⟩ _ _ _ h3 h7

theorem engineInv_init (cfg : RunConfig) (inputs : List BarInput) :
    EngineInv inputs (initState cfg) := by
  refine ⟨fun _ => rfl, ?_, le_refl 0, ?_, ?_, ?_, ?_⟩ <;>
    simp [initState, countOutstanding]

theorem engineInv_run (cfg : RunConfig) (inputs : List BarInput) :
    EngineInv inputs (runEngine cfg inputs) := by
  unfold runEngine
  apply foldl_invariant (barStep cfg) (EngineInv inputs) inputs.enum
    (initState cfg) (engineInv_init cfg inputs)
  intro s' a ha hs'
  obtain ⟨i, b⟩ := a
  have hib : inputs[i]? = some b := List.mk_mem_enum_iff_getElem?.mp ha
  exact brokerResolve_inv cfg.commission b.act inputs _
    (strategyNext_inv cfg inputs i b hib s' hs')

/-! ### Claim theorems -/

/-- C1: at every point during replay at most one order is outstanding
(status SUBMITTED or ACCEPTED), for every input bar sequence, every
broker schedule and every configuration; and while the strategy's
pending-order tracker holds an order the per-bar decision step returns
the state unchanged, so it takes no action and emits no new order
(src/main.py lines 73–75). -/
theorem at_most_one_outstanding_order (cfg : RunConfig)
    (inputs : List BarInput) :
    countOutstanding (runEngine cfg inputs).orders ≤ 1 ∧
    ∀ (st : EngineState) (bar : ℕ) (close cross : ℚ),
      st.order.isSome = true → strategyNext cfg bar close cross st = st :=
  ⟨(engineInv_run cfg inputs).2.1,
   fun _ _ _ _ h => by simp [strategyNext, h]⟩

/-- Witness for C1 at a concrete run and a concrete pending state. -/
theorem at_most_one_outstanding_order_witness :
    countOutstanding (runEngine defaultConfig
      [{ close := 100, cross := 1, act := .keep },
       { close := 101, cross := 1, act := .fill }]).orders ≤ 1 ∧
    strategyNext defaultConfig 0 100 1
      { order := some 0, position := 0, cash := 0, orders := [],
        nextId := 1, fills := [] } =
      { order := some 0, position := 0, cash := 0, orders := [],
        nextId := 1, fills := [] } :=
  ⟨(at_most_one_outstanding_order defaultConfig _).1,
   (at_most_one_outstanding_order defaultConfig []).2 _ 0 100 1 rfl⟩

/-- C2: for every bar with no pending order, a flat position and a
positive crossover value the strategy emits exactly one BUY intent of
size 10; with a nonzero position and a negative crossover value it
emits exactly one SELL intent sized to fully close the position; in
every other case it changes nothing (src/main.py lines 77–91). -/
theorem strategy_decision_cases (cfg : RunConfig) (bar : ℕ)
    (close cross : ℚ) (st : EngineState) (h : st.order = none) :
    (st.position = 0 → 0 < cross →
      strategyNext cfg bar close cross st =
        { st with
          order := some st.nextId,
          orders := st.orders ++
            [{ id := st.nextId, side := .buy, size := 10,
               status := .submitted, createdAtBar := bar,
               createdClose := close }],
          nextId := st.nextId + 1 }) ∧
    (st.position ≠ 0 → cross < 0 →
      strategyNext cfg bar close cross st =
        { st with
          order := some st.nextId,
          orders := st.orders ++
            [{ id := st.nextId, side := .sell, size := st.position,
               status := .submitted, createdAtBar := bar,
               createdClose := close }],
          nextId := st.nextId + 1 }) ∧
    (¬(st.position = 0 ∧ 0 < cross) → ¬(st.position ≠ 0 ∧ cross < 0) →
      strategyNext cfg bar close cross st = st) := by
  refine ⟨?_, ?_, ?_⟩
  · intro hpos hcross
    simp [strategyNext, h, hpos, hcross]
  · intro hpos hcross
    simp [strategyNext, h, hpos, hcross]
  · intro hna hnb
    by_cases hpos : st.position = 0
    · have hc : ¬ 0 < cross := fun hc => hna ⟨hpos, hc⟩
      simp [strategyNext, h, hpos, hc]
    · have hc : ¬ cross < 0 := fun hc => hnb ⟨hpos, hc⟩
      simp [strategyNext, h, hpos, hc]

/-- Witness for C2: the bullish-cross branch at the initial state. -/
theorem strategy_decision_cases_witness :
    strategyNext defaultConfig 0 100 1 (initState defaultConfig) =
      { order := some 0, position := 0, cash := 100000,
        orders := [{ id := 0, side := .buy, size := 10,
                     status := .submitted, createdAtBar := 0,
                     createdClose := 100 }],
        nextId := 1, fills := [] } :=
  (strategy_decision_cases defaultConfig 0 100 1
    (initState defaultConfig) rfl).1 rfl (by norm_num)

/-- C3: every fill recorded by the broker carries the closing price of
the bar on which the strategy created the order (the spec's
fill-at-decision-bar's-close policy), for every input sequence and
broker schedule. -/
theorem fill_at_creation_bar_close (cfg : RunConfig)
    (inputs : List BarInput) :
    ∀ f ∈ (runEngine cfg inputs).fills,
      ∃ b : BarInput, inputs[f.createdAtBar]? = some b ∧ f.price = b.close := by
  intro f hf
  have h := (engineInv_run cfg inputs).2.2.2.2.2.2 f hf
  cases hb : inputs[f.createdAtBar]? with
  | none => rw [hb] at h; simp at h
  | some b =>
    rw [hb] at h
    simp only [Option.map_some', Option.some_inj] at h
    exact ⟨b, rfl, h.symm⟩

/-- Witness for C3: a one-bar run whose BUY order fills at that bar's
close of 100. -/
theorem fill_at_creation_bar_close_witness :
    ({ orderId := 0, side := .buy, size := 10, price := 100,
       createdAtBar := 0 } : Fill) ∈
      (runEngine cfgA [{ close := 100, cross := 1, act := .fill }]).fills ∧
    ∃ b : BarInput,
      ([{ close := 100, cross := 1, act := .fill }] :
        List BarInput)[(0 : ℕ)]? = some b ∧ (100 : ℚ) = b.close :=
  ⟨by decide,
   fill_at_creation_bar_close cfgA [{ close := 100, cross := 1, act := .fill }]
     { orderId := 0, side := .buy, size := 10, price := 100, createdAtBar := 0 }
     (by decide)⟩

/-- C6: the position size is never negative at the end of any replay —
and since every prefix of a replay is itself a replay, never at any
intermediate point either — for every input sequence, broker schedule
and configuration. -/
theorem position_size_nonneg (cfg : RunConfig) (inputs : List BarInput) :
    0 ≤ (runEngine cfg inputs).position :=
  (engineInv_run cfg inputs).2.2.1

/-- C7 counterexample: the emitted BUY intent has size 10 under two run
configurations that differ in every configurable field (MA periods,
starting cash, commission); no configured value changes the BUY size,
and the configuration has no position-size field at all. -/
theorem buy_size_not_configurable :
    cfgA ≠ defaultConfig ∧
    (strategyNext cfgA 0 100 1 (initState cfgA)).orders =
      [{ id := 0, side := .buy, size := 10, status := .submitted,
         createdAtBar := 0, createdClose := 100 }] ∧
    (strategyNext defaultConfig 0 100 1 (initState defaultConfig)).orders =
      [{ id := 0, side := .buy, size := 10, status := .submitted,
         createdAtBar := 0, createdClose := 100 }] :=
  ⟨by decide, by decide, by decide⟩

/-- C7 amended: the BUY order size is the hard-coded constant 10
(`self.buy(size=10)`, src/main.py line 83); every emitted BUY intent
has size 10 whatever the run configuration. -/
theorem buy_size_always_ten (cfg : RunConfig) (bar : ℕ)
    (close cross : ℚ) (st : EngineState) (h : st.order = none)
    (hpos : st.position = 0) (hcross : 0 < cross) :
    ∃ o : Order,
      (strategyNext cfg bar close cross st).orders = st.orders ++ [o] ∧
      o.side = .buy ∧ o.size = 10 :=
  ⟨{ id := st.nextId, side := .buy, size := 10, status := .submitted,
     createdAtBar := bar, createdClose := close },
   by simp [strategyNext, h, hpos, hcross], rfl, rfl⟩

/-- Witness for the amended C7 at the initial state of `cfgA`. -/
theorem buy_size_always_ten_witness :
    ∃ o : Order,
      (strategyNext cfgA 3 250 1 (initState cfgA)).orders = [] ++ [o] ∧
      o.side = .buy ∧ o.size = 10 :=
  buy_size_always_ten cfgA 3 250 1 _ rfl rfl (by norm_num)

/-- C8: with zero closed trades the report is exactly the explicit
`no trades closed` line and contains no win-rate line; with a positive
number of closed trades the win-rate line `won / closed * 100` is
printed and its denominator is nonzero (src/main.py lines 165–179). -/
theorem trade_report_no_trades (t : TradeAnalysis) :
    (t.closed = 0 →
      tradeReport t = [ReportLine.noTradesClosed] ∧
      ∀ r : ℚ, ReportLine.winRate r ∉ tradeReport t) ∧
    (0 < t.closed →
      ReportLine.winRate ((t.won : ℚ) / (t.closed : ℚ) * 100) ∈ tradeReport t ∧
      ReportLine.noTradesClosed ∉ tradeReport t ∧
      (t.closed : ℚ) ≠ 0) := by
  constructor
  · intro h0
    have hn : ¬ 0 < t.closed := by omega
    refine ⟨by simp [tradeReport, hn], fun r => by simp [tradeReport, hn]⟩
  · intro hpos
    refine ⟨?_, ?_, ?_⟩
    · simp [tradeReport, hpos]
    · by_cases hw : 0 < t.won <;> by_cases hl : 0 < t.lost <;>
        simp [tradeReport, hpos, hw, hl]
    · exact Nat.cast_ne_zero.mpr (by omega)

/-- Witness for C8: the all-zero trade analysis prints the
`no trades closed` line, and a one-trade analysis prints the win rate
over the nonzero denominator. -/
theorem trade_report_no_trades_witness :
    tradeReport
      { closed := 0, won := 0, lost := 0, wonPnlAverage := 0,
        lostPnlAverage := 0, longTotal := 0, longWon := 0, longLost := 0,
        shortTotal := 0, shortWon := 0, shortLost := 0 } =
      [ReportLine.noTradesClosed] ∧
    ReportLine.winRate ((1 : ℚ) / (1 : ℚ) * 100) ∈
      tradeReport
        { closed := 1, won := 1, lost := 0, wonPnlAverage := 5,
          lostPnlAverage := 0, longTotal := 1, longWon := 1, longLost := 0,
          shortTotal := 0, shortWon := 0, shortLost := 0 } :=
  ⟨((trade_report_no_trades
      { closed := 0, won := 0, lost := 0, wonPnlAverage := 0,
        lostPnlAverage := 0, longTotal := 0, longWon := 0, longLost := 0,
        shortTotal := 0, shortWon := 0, shortLost := 0 }).1 rfl).1,
   by
    have h := ((trade_report_no_trades
      { closed := 1, won := 1, lost := 0, wonPnlAverage := 5,
        lostPnlAverage := 0, longTotal := 1, longWon := 1, longLost := 0,
        shortTotal := 0, shortWon := 0, shortLost := 0 }).2
        (by norm_num)).1
    simpa using h⟩

/-- C9: the code contradicts the claim.  On the degenerate input
[1, 1] (two returns, zero return variance) the analyzer produces the
analysis container with the ratio inside it undefined, so the source's
guard `sharpe_ratio is not None` (line 149), which tests the container
rather than the ratio, takes the printing branch, and formatting the
undefined ratio with `.2f` (line 150) raises a TypeError instead of
printing the explicit `N/A` line.  The `N/A` branch is reachable only
from an absent container, which `get_analysis` never yields. -/
theorem sharpe_degenerate_raises_typeerror :
    get_analysis 252 [1, 1] = some { sharperatio := none } ∧
    sharpeReport (get_analysis 252 [1, 1]) =
      Except.error ReportError.typeError ∧
    sharpeReport none = Except.ok SharpeLine.na := by
  have hvar : listVariance [1, 1] = 0 := by
    norm_num [listVariance, listMean]
  have hratio : sharpeRatio 252 [1, 1] = none := by
    rw [sharpeRatio, if_pos (Or.inr hvar)]
  refine ⟨?_, ?_, rfl⟩
  · rw [get_analysis, hratio]
  · rw [get_analysis, hratio]
    rfl

/-- C10: every terminal order notification (Completed, Canceled, Margin
or Rejected) resets the pending-order tracker to `none`
(src/main.py line 66), so the strategy is again able to emit an order
on a later bar: after such a notification a flat state with a bullish
cross emits one more order. -/
theorem notify_terminal_resets_tracker (st : EngineState)
    (status : OrderStatus)
    (h : status = .completed ∨ status = .canceled ∨
         status = .margin ∨ status = .rejected) :
    (notify_order st status).order = none ∧
    ∀ (cfg : RunConfig) (bar : ℕ) (close cross : ℚ),
      (notify_order st status).position = 0 → 0 < cross →
      ((strategyNext cfg bar close cross (notify_order st status)).orders).length =
        (notify_order st status).orders.length + 1 := by
  have hn : ¬(status = .submitted ∨ status = .accepted) := by
    rcases h with h | h | h | h <;> subst h <;> simp
  have ho : (notify_order st status).order = none := by
    rw [notify_order, if_neg hn]
  refine ⟨ho, ?_⟩
  intro cfg bar close cross hpos hcross
  simp [strategyNext, ho, hpos, hcross]

/-- Witness for C10: a canceled order frees the tracker and the next
bullish cross emits a new order. -/
theorem notify_terminal_resets_tracker_witness :
    (notify_order
      { order := some 0, position := 0, cash := 100, orders := [],
        nextId := 1, fills := [] } .canceled).order = none ∧
    ((strategyNext defaultConfig 5 100 1 (notify_order
      { order := some 0, position := 0, cash := 100, orders := [],
        nextId := 1, fills := [] } .canceled)).orders).length =
      ((notify_order
      { order := some 0, position := 0, cash := 100, orders := [],
        nextId := 1, fills := [] } .canceled)).orders.length + 1 :=
  ⟨(notify_terminal_resets_tracker _ _ (Or.inr (Or.inl rfl))).1,
   (notify_terminal_resets_tracker _ _ (Or.inr (Or.inl rfl))).2
     defaultConfig 5 100 1 rfl (by norm_num)⟩

/-! ### The SMA indicator computes trailing means -/

theorem trailing_eq_of_le {p : ℕ} {l : List ℚ} (h : l.length ≤ p) :
    trailing p l = l := by
  simp [trailing, Nat.sub_eq_zero_of_le h]

theorem trailing_length_of_le {p : ℕ} {l : List ℚ} (h : p ≤ l.length) :
    (trailing p l).length = p := by
  simp only [trailing, List.length_drop]
  omega

theorem smaStep_trailing (p : ℕ) (hp : 1 ≤ p) (pre : List ℚ) (x : ℚ) :
    smaStep p (trailing p pre, (trailing p pre).sum) x =
      (trailing p (pre ++ [x]), (trailing p (pre ++ [x])).sum) := by
  by_cases h : pre.length + 1 ≤ p
  · have h0 : pre.length ≤ p := by omega
    have e1 : trailing p pre = pre := trailing_eq_of_le h0
    have e2 : trailing p (pre ++ [x]) = pre ++ [x] :=
      trailing_eq_of_le (by simpa using h)
    rw [e1, e2]
    simp only [smaStep]
    rw [if_pos (by simpa using h)]
    simp
  · have hple : p ≤ pre.length := by omega
    have hlen : (trailing p pre).length = p := trailing_length_of_le hple
    obtain ⟨a, t, ht⟩ : ∃ a t, trailing p pre = a :: t := by
      cases htr : trailing p pre with
      | nil => rw [htr] at hlen; simp at hlen; omega
      | cons a t => exact ⟨a, t, rfl⟩
    have htlen : t.length = p - 1 := by
      have h' := hlen
      rw [ht] at h'
      simp at h'
      omega
    have key : trailing p (pre ++ [x]) = t ++ [x] := by
      have h1 : pre.length + 1 - p = (pre.length - p) + 1 := by omega
      have h2 : (pre.length - p) + 1 - pre.length = 0 := by omega
      calc trailing p (pre ++ [x])
          = (pre ++ [x]).drop ((pre.length - p) + 1) := by
            simp [trailing, h1]
        _ = pre.drop ((pre.length - p) + 1) ++ [x] := by
            rw [List.drop_append_eq_append_drop, h2]
            rfl
        _ = (pre.drop (pre.length - p)).drop 1 ++ [x] := by
            rw [List.drop_drop]
        _ = t ++ [x] := by
            have he : pre.drop (pre.length - p) = a :: t := ht
            rw [he]
            rfl
    rw [ht, key]
    simp only [smaStep]
    rw [if_neg (by simp [htlen]; omega)]
    simp only [Prod.mk.injEq]
    refine ⟨rfl, ?_⟩
    show (a :: t).sum + x - (a :: (t ++ [x])).headI = (t ++ [x]).sum
    simp only [List.sum_cons, List.sum_append, List.sum_nil, List.headI]
    ring

theorem smaAux_getElem? (p : ℕ) (hp : 1 ≤ p) :
    ∀ (xs pre : List ℚ) (j : ℕ), j < xs.length →
      (smaAux p (trailing p pre, (trailing p pre).sum) xs)[j]? =
        some (smaOut p (pre ++ xs.take (j + 1)))
  | [], _, j, hj => by simp at hj
  | x :: xs, pre, 0, _ => by
    simp only [smaAux, smaStep_trailing p hp pre x, List.getElem?_cons_zero,
      List.take_succ_cons, List.take_zero]
    by_cases hc : p ≤ pre.length + 1
    · have hl : (trailing p (pre ++ [x])).length = p :=
        trailing_length_of_le (by simpa using hc)
      simp [smaOut, hl, hc]
    · have he : trailing p (pre ++ [x]) = pre ++ [x] :=
        trailing_eq_of_le (by simp; omega)
      have hne : (trailing p (pre ++ [x])).length ≠ p := by
        rw [he]
        simp
        omega
      simp [hne, smaOut, hc]
  | x :: xs, pre, j + 1, hj => by
    have ih := smaAux_getElem? p hp xs (pre ++ [x]) j (by simpa using hj)
    rw [← List.append_cons] at ih
    simp only [smaAux, smaStep_trailing p hp pre x, List.getElem?_cons_succ,
      List.take_succ_cons]
    exact ih

/-- C4: for every period p ≥ 1 and every price stream, the SMA value at
0-indexed bar (p−1)+k equals the arithmetic mean of the prices of bars
[k, k+p) — a window whose length is exactly p — and the indicator is
undefined (`none`) at every index strictly below p−1. -/
theorem sma_window_mean (p k : ℕ) (prices : List ℚ) (hp : 1 ≤ p) :
    ((p - 1) + k < prices.length →
      (sma p prices)[(p - 1) + k]? =
        some (some (((prices.drop k).take p).sum / (p : ℚ))) ∧
      ((prices.drop k).take p).length = p) ∧
    (∀ i, i < p - 1 → i < prices.length → (sma p prices)[i]? = some none) := by
  have hsma : ∀ j, j < prices.length →
      (sma p prices)[j]? = some (smaOut p (prices.take (j + 1))) := by
    intro j hj
    have h0 : trailing p [] = [] := by simp [trailing]
    have h1 : sma p prices =
        smaAux p (trailing p [], (trailing p []).sum) prices := by
      rw [h0]
      rfl
    rw [h1, smaAux_getElem? p hp prices [] j hj]
    simp
  constructor
  · intro hk
    have e1 : (p - 1) + k + 1 = p + k := by omega
    have hlen : p + k ≤ prices.length := by omega
    have hl : (prices.take (p + k)).length = p + k := by
      simp
      omega
    have key : trailing p (prices.take (p + k)) = (prices.drop k).take p := by
      calc trailing p (prices.take (p + k))
          = (prices.take (p + k)).drop k := by
            rw [trailing, hl]
            congr 1
            omega
        _ = (prices.drop k).take (p + k - k) := List.drop_take ..
        _ = (prices.drop k).take p := by congr 1; omega
    constructor
    · rw [hsma _ hk, e1]
      simp only [smaOut]
      rw [if_pos (by rw [hl]; omega), key]
    · simp
      omega
  · intro i hip hil
    rw [hsma i hil]
    simp only [smaOut]
    rw [if_neg (by simp; omega)]

/-- Witness for C4: the period-2 SMA of [1, 2, 4, 8] at index 2 is the
mean of the window [2, 4], and it is undefined at index 0. -/
theorem sma_window_mean_witness :
    ((sma 2 [1, 2, 4, 8])[(2 : ℕ)]? =
        some (some (((([1, 2, 4, 8] : List ℚ).drop 1).take 2).sum / (2 : ℚ))) ∧
      ((([1, 2, 4, 8] : List ℚ).drop 1).take 2).length = 2) ∧
    (sma 2 [1, 2, 4, 8])[(0 : ℕ)]? = some none :=
  ⟨(sma_window_mean 2 1 [1, 2, 4, 8] (by norm_num)).1 (by norm_num),
   (sma_window_mean 2 1 [1, 2, 4, 8] (by norm_num)).2 0 (by norm_num)
     (by norm_num)⟩

/-! ### The crossover detector compares consecutive diffs -/

theorem crossoverAux_getElem? :
    ∀ (pairs : List (Option ℚ × Option ℚ)) (prev : Option ℚ) (i : ℕ),
      (crossoverAux prev pairs)[i]? =
        (pairs[i]?).map (fun pr =>
          match pr with
          | (some f, some s) =>
            crossVal (lastDiffFrom prev (pairs.take i)) (f - s)
          | _ => 0)
  | [], prev, i => by simp [crossoverAux]
  | (some f, some s) :: rest, prev, 0 => by
    simp [crossoverAux, lastDiffFrom]
  | (some f, none) :: rest, prev, 0 => by
    simp [crossoverAux, lastDiffFrom]
  | (none, s?) :: rest, prev, 0 => by
    simp [crossoverAux, lastDiffFrom]
  | (some f, some s) :: rest, prev, i + 1 => by
    simp only [crossoverAux, List.getElem?_cons_succ, List.take_succ_cons,
      lastDiffFrom, List.foldl_cons]
    exact crossoverAux_getElem? rest (some (f - s)) i
  | (some f, none) :: rest, prev, i + 1 => by
    simp only [crossoverAux, List.getElem?_cons_succ, List.take_succ_cons,
      lastDiffFrom, List.foldl_cons]
    exact crossoverAux_getElem? rest prev i
  | (none, s?) :: rest, prev, i + 1 => by
    simp only [crossoverAux, List.getElem?_cons_succ, List.take_succ_cons,
      lastDiffFrom, List.foldl_cons]
    exact crossoverAux_getElem? rest prev i

theorem lastDiffFrom_none_of_all_undefined :
    ∀ (l : List (Option ℚ × Option ℚ)),
      (∀ pr ∈ l, pr.1 = none ∨ pr.2 = none) → lastDiffFrom none l = none
  | [], _ => rfl
  | (f?, s?) :: rest, h => by
    have hh := h (f?, s?) (List.mem_cons_self _ _)
    match f?, s? with
    | none, s? =>
      simp only [lastDiffFrom, List.foldl_cons]
      exact lastDiffFrom_none_of_all_undefined rest
        (fun pr hm => h pr (List.mem_cons_of_mem _ hm))
    | some f, none =>
      simp only [lastDiffFrom, List.foldl_cons]
      exact lastDiffFrom_none_of_all_undefined rest
        (fun pr hm => h pr (List.mem_cons_of_mem _ hm))
    | some f, some s =>
      simp at hh

/-- C5: at a bar where both indicator values are defined the crossover
value is `crossVal` of the most recent earlier defined diff and the
current diff `f − s`; where either indicator is undefined the value is
0 (read as NONE); when no earlier diff exists — before both indicators
are defined, and on the first bar where both become defined — the
detector sees `none` as previous diff, whose output always reads
NONE; and given a previous diff the signal is BULLISH_CROSS exactly
when prev ≤ 0 and diff > 0, BEARISH_CROSS exactly when prev ≥ 0 and
diff < 0, and NONE otherwise. -/
theorem crossover_signal_spec (fast slow : List (Option ℚ)) (i : ℕ) :
    (∀ f s, (fast.zip slow)[i]? = some (some f, some s) →
      (crossoverSeries fast slow)[i]? =
        some (crossVal (lastDiffFrom none ((fast.zip slow).take i)) (f - s))) ∧
    (∀ pr, (fast.zip slow)[i]? = some pr → (pr.1 = none ∨ pr.2 = none) →
      (crossoverSeries fast slow)[i]? = some 0) ∧
    (∀ l : List (Option ℚ × Option ℚ),
      (∀ pr ∈ l, pr.1 = none ∨ pr.2 = none) → lastDiffFrom none l = none) ∧
    (∀ c : ℚ, signalOf (crossVal none c) = Signal.noSignal) ∧
    (∀ d c : ℚ,
      (signalOf (crossVal (some d) c) = Signal.bullishCross ↔
        d ≤ 0 ∧ 0 < c) ∧
      (signalOf (crossVal (some d) c) = Signal.bearishCross ↔
        0 ≤ d ∧ c < 0) ∧
      (signalOf (crossVal (some d) c) = Signal.noSignal ↔
        ¬(d ≤ 0 ∧ 0 < c) ∧ ¬(0 ≤ d ∧ c < 0))) := by
  refine ⟨?_, ?_, lastDiffFrom_none_of_all_undefined, ?_, ?_⟩
  · intro f s h
    simp only [crossoverSeries]
    rw [crossoverAux_getElem? (fast.zip slow) none i, h]
    rfl
  · intro pr h hnone
    simp only [crossoverSeries]
    rw [crossoverAux_getElem? (fast.zip slow) none i, h]
    rcases pr with ⟨f?, s?⟩
    rcases hnone with h1 | h1
    · simp only at h1
      subst h1
      rfl
    · simp only at h1
      subst h1
      cases f? with
      | none => rfl
      | some f => rfl
  · intro c
    simp [crossVal, signalOf]
  · intro d c
    by_cases h1 : d ≤ 0 ∧ 0 < c <;> by_cases h2 : 0 ≤ d ∧ c < 0
    · exfalso
      linarith [h1.2, h2.2]
    · norm_num [crossVal, signalOf, h1, h2]
      exact ⟨fun h => Signal.noConfusion h, fun h => Signal.noConfusion h⟩
    · norm_num [crossVal, signalOf, h1, h2]
      exact ⟨fun h => Signal.noConfusion h, fun h => Signal.noConfusion h⟩
    · norm_num [crossVal, signalOf, h1, h2]
      exact ⟨fun h => Signal.noConfusion h, fun h => Signal.noConfusion h⟩

/-- Witness for C5: with fast [none, 1, 3] and slow [none, 2, 2] the
previous diff at bar 2 is −1 and the current diff is +1, so bar 2
carries the crossVal of those, while bar 0 (indicators undefined)
carries 0. -/
theorem crossover_signal_spec_witness :
    (crossoverSeries [none, some 1, some 3] [none, some 2, some 2])[(2 : ℕ)]? =
      some (crossVal (lastDiffFrom none
        (([none, some 1, some 3].zip [none, some 2, some 2]).take 2))
        ((3 : ℚ) - 2)) ∧
    (crossoverSeries [none, some 1, some 3] [none, some 2, some 2])[(0 : ℕ)]? =
      some 0 :=
  ⟨(crossover_signal_spec [none, some 1, some 3] [none, some 2, some 2] 2).1
      3 2 rfl,
   (crossover_signal_spec [none, some 1, some 3] [none, some 2, some 2] 0).2.1
      (none, none) rfl (Or.inl rfl)⟩
